import Mathlib

/-
Verification of the pvd portfolio-rebalancing strategy
(src/pkg/strategy/pvd/strategy.go) against its specification.

The Go code manipulates maps from currency symbols to fixedpoint decimal
values.  We embed such maps as association lists (Go map iteration order is
unspecified; the list fixes one iteration order, and the spec states that
order of emission carries no semantic meaning).
-/

namespace Pvd

/-- Modelled from the spec: fixedpoint.Value (package pkg/fixedpoint, not part
of the given sources) is a decimal number type with Add, Sub, Mul, Div, Abs,
Sign and Compare; we model it as exact rational arithmetic. -/
abbrev Value := ℚ

/-- A Go map from currency symbol to Value, embedded as an association list. -/
abbrev VMap := List (String × Value)

/-- Go map indexing m[k]: the stored value, or the zero value when the key is
absent. -/
def lookupD (m : VMap) (k : String) : Value := (m.lookup k).getD 0

/-- Sum of all values of the map (strategy.go, func Sum): the Go loop adds
every value to an accumulator starting at 0. -/
def Sum (m : VMap) : Value := (m.map Prod.snd).sum

/-- strategy.go, func Normalize: if the sum is 1 the map is returned
unchanged, otherwise every value is divided by the sum. -/
def Normalize (m : VMap) : VMap :=
  let sum := Sum m
  if sum = 1 then m
  else m.map (fun kv => (kv.1, kv.2 / sum))

/-- strategy.go, func ElementwiseProduct: iterate m1 and multiply each value
by m2[k] (zero when absent from m2). -/
def ElementwiseProduct (m1 m2 : VMap) : VMap :=
  m1.map (fun kv => (kv.1, kv.2 * lookupD m2 kv.1))

/-- types.SideType restricted to the two values the strategy uses. -/
inductive SideType where
  | buy
  | sell
deriving DecidableEq, Repr

/-- types.OrderType: the strategy only creates market orders. -/
inductive OrderType where
  | market
deriving DecidableEq, Repr

/-- The fields of types.SubmitOrder that the strategy sets. -/
structure SubmitOrder where
  Symbol : String
  Side : SideType
  OrdType : OrderType
  Quantity : Value
deriving DecidableEq, Repr

/-- The configuration fields of the Strategy struct that the decision core
reads (Interval, Window, Verbose and the indicator set only affect plumbing
and logging). -/
structure Strategy where
  BaseCurrency : String
  Threshold : Value
  IgnoreLocked : Bool
  DryRun : Bool
  MaxAmount : Value
deriving Repr

/-- Modelled from the spec: bbgo.AdjustQuantityByMaxAmount (package pkg/bbgo,
not part of the given sources) caps the quantity so that
quantity * price ≤ maxAmount, i.e. it returns min(quantity, maxAmount/price). -/
def AdjustQuantityByMaxAmount (quantity currentPrice maxAmount : Value) : Value :=
  min quantity (maxAmount / currentPrice)

/-- The body of the per-currency loop of generateSubmitOrders
(strategy.go lines 176-227): skip the base currency; skip when the absolute
weight difference is below the threshold; otherwise derive quantity and side,
optionally cap by MaxAmount, and emit a market order. -/
def orderFor (s : Strategy) (prices currentWeights : VMap) (totalValue : Value)
    (kv : String × Value) : Option SubmitOrder :=
  if kv.1 = s.BaseCurrency then none
  else
    let currentWeight := lookupD currentWeights kv.1
    let currentPrice := lookupD prices kv.1
    let weightDifference := kv.2 - currentWeight
    if |weightDifference| < s.Threshold then none
    else
      let quantity0 := weightDifference * totalValue / currentPrice
      let side := if quantity0 < 0 then SideType.sell else SideType.buy
      let quantity1 := if quantity0 < 0 then |quantity0| else quantity0
      let quantity2 :=
        if 0 < s.MaxAmount then AdjustQuantityByMaxAmount quantity1 currentPrice s.MaxAmount
        else quantity1
      some { Symbol := kv.1 ++ s.BaseCurrency, Side := side, OrdType := OrderType.market,
             Quantity := quantity2 }

/-- strategy.go, func generateSubmitOrders: normalize market values into
current weights, compute the total value, and run the per-currency loop over
the target weights, collecting the emitted orders in iteration order. -/
def generateSubmitOrders (s : Strategy) (prices marketValues targetWeights : VMap) :
    List SubmitOrder :=
  targetWeights.filterMap (orderFor s prices (Normalize marketValues) (Sum marketValues))

/-- The balance fields used by the strategy (types.Balance is not part of the
given sources; per the spec a balance has an available part and a locked
part, with Total = available + locked, and a currency absent from the
balance map counts as zero). -/
structure Balance where
  Available : Value
  Locked : Value
deriving DecidableEq, Repr

def Balance.Total (b : Balance) : Value := b.Available + b.Locked

abbrev BalanceMap := List (String × Balance)

/-- Go map indexing balances[currency]: zero balance when absent. -/
def lookupBalance (m : BalanceMap) (k : String) : Balance :=
  (m.lookup k).getD { Available := 0, Locked := 0 }

/-- strategy.go, func getQuantities: for each target-weight currency take the
total balance when IgnoreLocked is set, the available balance otherwise. -/
def getQuantities (s : Strategy) (balances : BalanceMap) (targetWeights : VMap) : VMap :=
  targetWeights.map (fun kv =>
    (kv.1,
      if s.IgnoreLocked then (lookupBalance balances kv.1).Total
      else (lookupBalance balances kv.1).Available))

/-- strategy.go, func getPrices, as a recursion over the target-weight
entries with the accumulated price map: the base currency is priced at 1
without a lookup; any other currency is priced by querying the ticker for
currency+BaseCurrency (the query argument models
session.Exchange.QueryTicker returning ticker.Last); on the first query
error the partially filled map is returned together with the error. -/
def getPricesAux (s : Strategy) (query : String → Except String Value) :
    List (String × Value) → VMap → VMap × Option String
  | [], prices => (prices, none)
  | kv :: rest, prices =>
    if kv.1 = s.BaseCurrency then
      getPricesAux s query rest (prices ++ [(kv.1, 1)])
    else
      match query (kv.1 ++ s.BaseCurrency) with
      | Except.error e => (prices, some e)
      | Except.ok p => getPricesAux s query rest (prices ++ [(kv.1, p)])

def getPrices (s : Strategy) (query : String → Except String Value)
    (targetWeights : VMap) : VMap × Option String :=
  getPricesAux s query targetWeights []

/-- Outcome of one rebalance tick: the generated order list, and the argument
of the orderExecutor.SubmitOrders call when it is invoked (none when it is
not invoked). -/
structure RebalanceResult where
  orders : List SubmitOrder
  submitted : Option (List SubmitOrder)
deriving DecidableEq, Repr

/-- strategy.go, func rebalance: resolve prices (abort the tick on error),
resolve quantities, compute market values, generate the orders, and submit
them unless DryRun is set. -/
def rebalance (s : Strategy) (query : String → Except String Value)
    (balances : BalanceMap) (targetWeights : VMap) : RebalanceResult :=
  match getPrices s query targetWeights with
  | (_, some _) => { orders := [], submitted := none }
  | (prices, none) =>
    let quantities := getQuantities s balances targetWeights
    let marketValues := ElementwiseProduct prices quantities
    let orders := generateSubmitOrders s prices marketValues targetWeights
    if s.DryRun then { orders := orders, submitted := none }
    else { orders := orders, submitted := some orders }

/-- The raw (uncapped) quantity derived on strategy.go line 202:
weightDifference * totalValue / currentPrice. -/
def rawQuantity (prices currentWeights : VMap) (totalValue : Value)
    (kv : String × Value) : Value :=
  (kv.2 - lookupD currentWeights kv.1) * totalValue / lookupD prices kv.1

theorem Sum_nil : Sum [] = 0 := rfl

theorem Sum_cons (kv : String × Value) (m : VMap) : Sum (kv :: m) = kv.2 + Sum m := by
  simp [Sum]

theorem Sum_map_div (m : VMap) (d : Value) :
    Sum (m.map fun kv => (kv.1, kv.2 / d)) = Sum m / d := by
  induction m with
  | nil => simp [Sum]
  | cons kv t ih => simp only [List.map_cons, Sum_cons] at *; rw [ih, add_div]

theorem Normalize_of_sum_eq_one {m : VMap} (h : Sum m = 1) : Normalize m = m := by
  simp [Normalize, h]

theorem Sum_Normalize {m : VMap} (h : Sum m ≠ 0) : Sum (Normalize m) = 1 := by
  unfold Normalize
  by_cases h1 : Sum m = 1
  · simp [h1]
  · simp only [h1, if_false]
    rw [Sum_map_div, div_self h]

theorem ite_neg_abs (x : Value) : (if x < 0 then |x| else x) = |x| := by
  split
  · rfl
  · exact (abs_of_nonneg (not_lt.1 (by assumption))).symm

theorem append_right_cancel_str {a b c : String} (h : a ++ c = b ++ c) : a = b := by
  apply String.ext
  have hd := congrArg String.data h
  rw [String.data_append, String.data_append] at hd
  exact List.append_cancel_right hd

theorem val_unique_of_nodup_keys :
    ∀ {tw : VMap}, (tw.map Prod.fst).Nodup →
      ∀ {c : String} {w w' : Value}, (c, w) ∈ tw → (c, w') ∈ tw → w = w' := by
  intro tw
  induction tw with
  | nil => intro _ c w w' h1; cases h1
  | cons hd tl ih =>
    intro hnd c w w' h1 h2
    rw [List.map_cons, List.nodup_cons] at hnd
    rcases List.mem_cons.1 h1 with he1 | ht1
    · rcases List.mem_cons.1 h2 with he2 | ht2
      · exact (Prod.ext_iff.1 (he1.trans he2.symm)).2
      · refine absurd ?_ hnd.1
        have hc : hd.1 = c := by rw [← he1]
        rw [hc]
        exact List.mem_map_of_mem Prod.fst ht2
    · rcases List.mem_cons.1 h2 with he2 | ht2
      · refine absurd ?_ hnd.1
        have hc : hd.1 = c := by rw [← he2]
        rw [hc]
        exact List.mem_map_of_mem Prod.fst ht1
      · exact ih hnd.2 ht1 ht2

theorem orderFor_eq_some {s : Strategy} {prices currentWeights : VMap} {totalValue : Value}
    {kv : String × Value} {o : SubmitOrder}
    (h : orderFor s prices currentWeights totalValue kv = some o) :
    kv.1 ≠ s.BaseCurrency ∧
    s.Threshold ≤ |kv.2 - lookupD currentWeights kv.1| ∧
    o.Symbol = kv.1 ++ s.BaseCurrency ∧
    o.OrdType = OrderType.market ∧
    o.Side = (if rawQuantity prices currentWeights totalValue kv < 0
        then SideType.sell else SideType.buy) ∧
    o.Quantity = (if 0 < s.MaxAmount
        then AdjustQuantityByMaxAmount |rawQuantity prices currentWeights totalValue kv|
          (lookupD prices kv.1) s.MaxAmount
        else |rawQuantity prices currentWeights totalValue kv|) := by
  unfold orderFor at h
  by_cases h1 : kv.1 = s.BaseCurrency
  · rw [if_pos h1] at h
    exact absurd h (by simp)
  · rw [if_neg h1] at h
    dsimp only at h
    by_cases h2 : |kv.2 - lookupD currentWeights kv.1| < s.Threshold
    · rw [if_pos h2] at h
      exact absurd h (by simp)
    · rw [if_neg h2] at h
      have ho := Option.some_inj.1 h
      refine ⟨h1, not_lt.1 h2, ?_, ?_, ?_, ?_⟩ <;> rw [← ho] <;>
        simp [rawQuantity, ite_neg_abs]

theorem orderFor_emits {s : Strategy} {prices currentWeights : VMap} {totalValue : Value}
    {kv : String × Value}
    (h1 : kv.1 ≠ s.BaseCurrency)
    (h2 : s.Threshold ≤ |kv.2 - lookupD currentWeights kv.1|) :
    ∃ o, orderFor s prices currentWeights totalValue kv = some o := by
  unfold orderFor
  rw [if_neg h1]
  dsimp only
  rw [if_neg (not_lt.2 h2)]
  exact ⟨_, rfl⟩

/-- C5: Normalize(m) returns the input map m unchanged exactly when Sum(m)
equals 1 exactly, and otherwise returns a new map in which every value of m
is divided by Sum(m), under the precondition Sum(m) ≠ 0. -/
theorem C5_normalize_characterization (m : VMap) (h0 : Sum m ≠ 0) :
    (Normalize m = m ↔ Sum m = 1) ∧
    (Sum m ≠ 1 → Normalize m = m.map fun kv => (kv.1, kv.2 / Sum m)) := by
  constructor
  · constructor
    · intro heq
      by_contra h1
      have hdiv : (m.map fun kv => (kv.1, kv.2 / Sum m)) = m := by
        have h2 : Normalize m = m.map fun kv => (kv.1, kv.2 / Sum m) := by
          simp [Normalize, h1]
        rw [← h2]
        exact heq
      have hs := congrArg Sum hdiv
      rw [Sum_map_div, div_self h0] at hs
      exact h1 hs.symm
    · exact Normalize_of_sum_eq_one
  · intro h1
    simp [Normalize, h1]

theorem C5_normalize_characterization_witness :
    (Normalize [("A", 2)] = [("A", 2)] ↔ Sum [("A", 2)] = 1) ∧
    (Sum [("A", 2)] ≠ 1 →
      Normalize [("A", 2)] = ([("A", 2)] : VMap).map fun kv => (kv.1, kv.2 / Sum [("A", 2)])) :=
  C5_normalize_characterization [("A", 2)] (by norm_num [Sum])

/-- C6: for every non-empty map with positive sum, the values of Normalize(m)
sum to exactly 1, and Normalize is idempotent on such maps. -/
theorem C6_normalize_sum_one_idempotent (m : VMap) (_hne : m ≠ []) (hpos : 0 < Sum m) :
    Sum (Normalize m) = 1 ∧ Normalize (Normalize m) = Normalize m := by
  have h0 : Sum m ≠ 0 := ne_of_gt hpos
  exact ⟨Sum_Normalize h0, Normalize_of_sum_eq_one (Sum_Normalize h0)⟩

theorem C6_normalize_sum_one_idempotent_witness :
    Sum (Normalize [("A", 1), ("B", 3)]) = 1 ∧
    Normalize (Normalize [("A", 1), ("B", 3)]) = Normalize [("A", 1), ("B", 3)] :=
  C6_normalize_sum_one_idempotent [("A", 1), ("B", 3)] (by simp) (by norm_num [Sum])

/-- C7: ElementwiseProduct(m1, m2) has exactly the key set of m1 (keys only
in m2 are ignored), and each key k of m1 maps to m1[k] * m2[k], where m2[k]
is 0 when k is absent from m2. -/
theorem C7_elementwise_product_keys_values (m1 m2 : VMap) :
    (ElementwiseProduct m1 m2).map Prod.fst = m1.map Prod.fst ∧
    ∀ k, (ElementwiseProduct m1 m2).lookup k =
      (m1.lookup k).map (fun v => v * lookupD m2 k) := by
  constructor
  · simp [ElementwiseProduct]
  · intro k
    induction m1 with
    | nil => rfl
    | cons kv t ih =>
      obtain ⟨a, b⟩ := kv
      simp only [ElementwiseProduct, List.map_cons] at *
      by_cases hk : k = a
      · simp [List.lookup, hk]
      · simp [List.lookup, beq_false_of_ne hk, ih]

/-- C1: for a non-base currency c in the target-weight map, generateSubmitOrders
produces no order for c when the absolute deviation is strictly below the
threshold, and produces an order for c when it is greater than or equal to the
threshold (the boundary is inclusive toward trading). -/
theorem C1_threshold_boundary (s : Strategy) (prices marketValues targetWeights : VMap)
    (c : String) (w : Value)
    (hmem : (c, w) ∈ targetWeights)
    (hc : c ≠ s.BaseCurrency)
    (hnodup : (targetWeights.map Prod.fst).Nodup) :
    (|w - lookupD (Normalize marketValues) c| < s.Threshold →
      ∀ o ∈ generateSubmitOrders s prices marketValues targetWeights,
        o.Symbol ≠ c ++ s.BaseCurrency) ∧
    (s.Threshold ≤ |w - lookupD (Normalize marketValues) c| →
      ∃ o ∈ generateSubmitOrders s prices marketValues targetWeights,
        o.Symbol = c ++ s.BaseCurrency) := by
  constructor
  · intro hlt o ho hsym
    rcases List.mem_filterMap.1 ho with ⟨kv, hkv, hof⟩
    obtain ⟨k1, w'⟩ := kv
    obtain ⟨h1, h2, h3, _⟩ := orderFor_eq_some hof
    have hck : k1 = c := append_right_cancel_str (h3.symm.trans hsym)
    subst hck
    have hww : w' = w := val_unique_of_nodup_keys hnodup hkv hmem
    subst hww
    exact absurd h2 (not_le.2 hlt)
  · intro hge
    obtain ⟨o, ho⟩ :=
      @orderFor_emits s prices (Normalize marketValues) (Sum marketValues) (c, w) hc hge
    exact ⟨o, List.mem_filterMap.2 ⟨(c, w), hmem, ho⟩, (orderFor_eq_some ho).2.2.1⟩

theorem C1_threshold_boundary_witness :
    ∃ o ∈ generateSubmitOrders ⟨"USDT", 1/20, false, false, 0⟩
        [("BTC", 100), ("USDT", 1)] [("BTC", 50), ("USDT", 50)]
        [("BTC", 3/5), ("USDT", 2/5)],
      o.Symbol = "BTC" ++ "USDT" :=
  (C1_threshold_boundary ⟨"USDT", 1/20, false, false, 0⟩ [("BTC", 100), ("USDT", 1)]
      [("BTC", 50), ("USDT", 50)] [("BTC", 3/5), ("USDT", 2/5)] "BTC" (3/5)
      (by simp) (by decide) (by decide)).2
    (by norm_num [Normalize, Sum, lookupD, List.lookup, abs_of_pos, abs_of_nonneg])

/-- C2 counterexample: with threshold 0 and a currency whose deviation is
exactly 0, the code emits an order with quantity 0, refuting the claim that
every produced order has strictly positive quantity. -/
theorem C2_counterexample :
    ∃ o ∈ generateSubmitOrders ⟨"USDT", 0, false, false, 0⟩
        [("BTC", 1), ("USDT", 1)] [("BTC", 1), ("USDT", 1)]
        [("BTC", 1/2), ("USDT", 1/2)],
      ¬ (0 < o.Quantity) := by
  norm_num [generateSubmitOrders, orderFor, Normalize, Sum, lookupD, List.lookup,
    List.filterMap]
  decide

/-- C2 (amended): when the threshold is strictly positive, the total market
value is positive, and every non-base target currency has a positive price,
every produced order has strictly positive quantity; the side is buy when the
raw (uncapped) quantity deviation*TotalValue/price is positive and sell when
it is negative; and when no MaxAmount cap is configured the order quantity is
exactly the absolute value of the raw quantity. -/
theorem C2_quantity_side_amended (s : Strategy) (prices marketValues targetWeights : VMap)
    (hthr : 0 < s.Threshold)
    (htv : 0 < Sum marketValues)
    (hp : ∀ kv ∈ targetWeights, kv.1 ≠ s.BaseCurrency → 0 < lookupD prices kv.1) :
    ∀ o ∈ generateSubmitOrders s prices marketValues targetWeights,
      0 < o.Quantity ∧
      ∃ kv ∈ targetWeights,
        o.Symbol = kv.1 ++ s.BaseCurrency ∧
        (0 < rawQuantity prices (Normalize marketValues) (Sum marketValues) kv →
          o.Side = SideType.buy) ∧
        (rawQuantity prices (Normalize marketValues) (Sum marketValues) kv < 0 →
          o.Side = SideType.sell) ∧
        (¬ 0 < s.MaxAmount →
          o.Quantity = |rawQuantity prices (Normalize marketValues) (Sum marketValues) kv|) := by
  intro o ho
  rcases List.mem_filterMap.1 ho with ⟨kv, hkv, hof⟩
  obtain ⟨h1, h2, h3, _, h5, h6⟩ := orderFor_eq_some hof
  have hpk : 0 < lookupD prices kv.1 := hp kv hkv h1
  have hdne : kv.2 - lookupD (Normalize marketValues) kv.1 ≠ 0 := by
    intro hz
    rw [hz] at h2
    simp at h2
    exact absurd (lt_of_lt_of_le hthr h2) (lt_irrefl 0)
  have hqne : rawQuantity prices (Normalize marketValues) (Sum marketValues) kv ≠ 0 := by
    unfold rawQuantity
    exact div_ne_zero (mul_ne_zero hdne (ne_of_gt htv)) (ne_of_gt hpk)
  have habs : 0 < |rawQuantity prices (Normalize marketValues) (Sum marketValues) kv| :=
    abs_pos.2 hqne
  refine ⟨?_, kv, hkv, h3, ?_, ?_, ?_⟩
  · rw [h6]
    split
    · rename_i hM
      exact lt_min habs (div_pos hM hpk)
    · exact habs
  · intro hpos
    rw [h5, if_neg (not_lt.2 (le_of_lt hpos))]
  · intro hneg
    rw [h5, if_pos hneg]
  · intro hM
    rw [h6, if_neg hM]

theorem C2_quantity_side_amended_witness :
    0 < (SubmitOrder.mk "BTCUSDT" SideType.buy OrderType.market (1/10)).Quantity :=
  (C2_quantity_side_amended ⟨"USDT", 1/20, false, false, 0⟩ [("BTC", 100), ("USDT", 1)]
      [("BTC", 50), ("USDT", 50)] [("BTC", 3/5), ("USDT", 2/5)]
      (by norm_num) (by norm_num [Sum])
      (by
        intro kv hkv hne
        rcases List.mem_cons.1 hkv with h | h
        · rw [h]; norm_num [lookupD, List.lookup]
        · rcases List.mem_cons.1 h with h' | h'
          · rw [h'] at hne; exact absurd rfl hne
          · cases h')
      (SubmitOrder.mk "BTCUSDT" SideType.buy OrderType.market (1/10))
      (by
        norm_num [generateSubmitOrders, orderFor, Normalize, Sum, lookupD,
          List.lookup, List.filterMap, abs_of_pos, abs_of_nonneg]
        simp)).1

/-- C3: when MaxAmount > 0 every produced order satisfies
quantity * price ≤ MaxAmount and the cap never increases the quantity; when
MaxAmount = 0 the quantity is the uncapped absolute raw quantity (positive
prices for the non-base target currencies are a spec precondition). -/
theorem C3_max_amount_cap (s : Strategy) (prices marketValues targetWeights : VMap)
    (hp : ∀ kv ∈ targetWeights, kv.1 ≠ s.BaseCurrency → 0 < lookupD prices kv.1) :
    ∀ o ∈ generateSubmitOrders s prices marketValues targetWeights,
      ∃ kv ∈ targetWeights,
        o.Symbol = kv.1 ++ s.BaseCurrency ∧
        (0 < s.MaxAmount →
          o.Quantity * lookupD prices kv.1 ≤ s.MaxAmount ∧
          o.Quantity ≤ |rawQuantity prices (Normalize marketValues) (Sum marketValues) kv|) ∧
        (s.MaxAmount = 0 →
          o.Quantity = |rawQuantity prices (Normalize marketValues) (Sum marketValues) kv|) := by
  intro o ho
  rcases List.mem_filterMap.1 ho with ⟨kv, hkv, hof⟩
  obtain ⟨h1, _, h3, _, _, h6⟩ := orderFor_eq_some hof
  have hpk : 0 < lookupD prices kv.1 := hp kv hkv h1
  refine ⟨kv, hkv, h3, ?_, ?_⟩
  · intro hM
    rw [h6, if_pos hM]
    unfold AdjustQuantityByMaxAmount
    constructor
    · exact (le_div_iff₀ hpk).1 (min_le_right _ _)
    · exact min_le_left _ _
  · intro hM0
    rw [h6, if_neg (by rw [hM0]; exact lt_irrefl 0)]

theorem C3_max_amount_cap_witness :
    ∃ kv ∈ ([("BTC", 3/5), ("USDT", 2/5)] : VMap),
      (SubmitOrder.mk "BTCUSDT" SideType.buy OrderType.market (1/20)).Symbol =
        kv.1 ++ "USDT" ∧
      (0 < (5 : Value) →
        (SubmitOrder.mk "BTCUSDT" SideType.buy OrderType.market (1/20)).Quantity *
            lookupD [("BTC", 100), ("USDT", 1)] kv.1 ≤ 5 ∧
        (SubmitOrder.mk "BTCUSDT" SideType.buy OrderType.market (1/20)).Quantity ≤
          |rawQuantity [("BTC", 100), ("USDT", 1)]
            (Normalize [("BTC", 50), ("USDT", 50)]) (Sum [("BTC", 50), ("USDT", 50)]) kv|) ∧
      ((5 : Value) = 0 →
        (SubmitOrder.mk "BTCUSDT" SideType.buy OrderType.market (1/20)).Quantity =
          |rawQuantity [("BTC", 100), ("USDT", 1)]
            (Normalize [("BTC", 50), ("USDT", 50)]) (Sum [("BTC", 50), ("USDT", 50)]) kv|) :=
  C3_max_amount_cap ⟨"USDT", 1/20, false, false, 5⟩ [("BTC", 100), ("USDT", 1)]
    [("BTC", 50), ("USDT", 50)] [("BTC", 3/5), ("USDT", 2/5)]
    (by
      intro kv hkv hne
      rcases List.mem_cons.1 hkv with h | h
      · rw [h]; norm_num [lookupD, List.lookup]
      · rcases List.mem_cons.1 h with h' | h'
        · rw [h'] at hne; exact absurd rfl hne
        · cases h')
    (SubmitOrder.mk "BTCUSDT" SideType.buy OrderType.market (1/20))
    (by
      norm_num [generateSubmitOrders, orderFor, Normalize, Sum, lookupD,
        List.lookup, List.filterMap, abs_of_pos, abs_of_nonneg,
        AdjustQuantityByMaxAmount, min_def]
      simp)

/-- C9: every order emitted by generateSubmitOrders is for a target-weight
currency distinct from the base currency, and its symbol is the concatenation
of that currency with the base currency. -/
theorem C9_no_base_currency_order (s : Strategy) (prices marketValues targetWeights : VMap) :
    ∀ o ∈ generateSubmitOrders s prices marketValues targetWeights,
      ∃ c, c ≠ s.BaseCurrency ∧ (∃ w, (c, w) ∈ targetWeights) ∧
        o.Symbol = c ++ s.BaseCurrency := by
  intro o ho
  rcases List.mem_filterMap.1 ho with ⟨kv, hkv, hof⟩
  obtain ⟨h1, _, h3, _⟩ := orderFor_eq_some hof
  exact ⟨kv.1, h1, ⟨kv.2, by simpa using hkv⟩, h3⟩

theorem C9_no_base_currency_order_witness :
    ∃ c, c ≠ ("USDT" : String) ∧
      (∃ w, (c, w) ∈ ([("ETH", 7/10), ("USDT", 3/10)] : VMap)) ∧
      (SubmitOrder.mk "ETHUSDT" SideType.buy OrderType.market (1/10)).Symbol =
        c ++ "USDT" :=
  C9_no_base_currency_order ⟨"USDT", 1/20, false, false, 0⟩ [("ETH", 200), ("USDT", 1)]
    [("ETH", 120), ("USDT", 80)] [("ETH", 7/10), ("USDT", 3/10)]
    (SubmitOrder.mk "ETHUSDT" SideType.buy OrderType.market (1/10))
    (by
      norm_num [generateSubmitOrders, orderFor, Normalize, Sum, lookupD, List.lookup,
        List.filterMap, abs_of_pos, abs_of_nonneg]
      simp)

theorem getPricesAux_first_error (s : Strategy) (query : String → Except String Value)
    {c : String} {w : Value} {e : String}
    (hc : c ≠ s.BaseCurrency) (he : query (c ++ s.BaseCurrency) = Except.error e) :
    ∀ (pre post acc : VMap),
      (∀ kv ∈ pre, kv.1 = s.BaseCurrency ∨
        ∃ p, query (kv.1 ++ s.BaseCurrency) = Except.ok p) →
      (getPricesAux s query (pre ++ (c, w) :: post) acc).2 = some e ∧
      (getPricesAux s query (pre ++ (c, w) :: post) acc).1.map Prod.fst =
        acc.map Prod.fst ++ pre.map Prod.fst := by
  intro pre
  induction pre with
  | nil =>
    intro post acc _
    rw [List.nil_append]
    dsimp only [getPricesAux]
    rw [if_neg hc, he]
    simp
  | cons kv t ih =>
    intro post acc hpre
    rw [List.cons_append]
    dsimp only [getPricesAux]
    by_cases hb : kv.1 = s.BaseCurrency
    · rw [if_pos hb]
      obtain ⟨h1, h2⟩ :=
        ih post (acc ++ [(kv.1, 1)]) (fun x hx => hpre x (List.mem_cons_of_mem kv hx))
      refine ⟨h1, ?_⟩
      rw [h2]
      simp
    · rcases hpre kv (List.mem_cons_self kv t) with hb' | ⟨p, hp⟩
      · exact absurd hb' hb
      · rw [if_neg hb, hp]
        obtain ⟨h1, h2⟩ :=
          ih post (acc ++ [(kv.1, p)]) (fun x hx => hpre x (List.mem_cons_of_mem kv hx))
        refine ⟨h1, ?_⟩
        rw [h2]
        simp

/-- C4: when a non-base currency fails its price lookup, getPrices stops at
that first failure, returning the partially filled map (holding exactly the
currencies processed before the failure) together with the error, and the
rebalance tick produces no orders and never calls SubmitOrders. -/
theorem C4_price_failure_aborts_tick (s : Strategy) (query : String → Except String Value)
    (balances : BalanceMap) (pre post : VMap) (c : String) (w : Value) (e : String)
    (hpre : ∀ kv ∈ pre, kv.1 = s.BaseCurrency ∨
      ∃ p, query (kv.1 ++ s.BaseCurrency) = Except.ok p)
    (hc : c ≠ s.BaseCurrency)
    (he : query (c ++ s.BaseCurrency) = Except.error e) :
    (getPrices s query (pre ++ (c, w) :: post)).2 = some e ∧
    (getPrices s query (pre ++ (c, w) :: post)).1.map Prod.fst = pre.map Prod.fst ∧
    rebalance s query balances (pre ++ (c, w) :: post) =
      { orders := [], submitted := none } := by
  obtain ⟨h1, h2⟩ := getPricesAux_first_error s query hc he pre post [] hpre
  refine ⟨h1, by simpa using h2, ?_⟩
  unfold rebalance
  have h1' : (getPrices s query (pre ++ (c, w) :: post)).2 = some e := h1
  rcases hgp : getPrices s query (pre ++ (c, w) :: post) with ⟨P, err⟩
  rw [hgp] at h1'
  dsimp only at h1'
  subst h1'
  rfl

theorem C4_price_failure_aborts_tick_witness :
    (getPrices ⟨"USDT", 1/20, false, false, 0⟩ (fun _ => Except.error "boom")
        ([] ++ ("BTC", 1/2) :: [("USDT", 1/2)])).2 = some "boom" ∧
    (getPrices ⟨"USDT", 1/20, false, false, 0⟩ (fun _ => Except.error "boom")
        ([] ++ ("BTC", 1/2) :: [("USDT", 1/2)])).1.map Prod.fst =
      ([] : VMap).map Prod.fst ∧
    rebalance ⟨"USDT", 1/20, false, false, 0⟩ (fun _ => Except.error "boom") []
        ([] ++ ("BTC", 1/2) :: [("USDT", 1/2)]) =
      { orders := [], submitted := none } :=
  C4_price_failure_aborts_tick ⟨"USDT", 1/20, false, false, 0⟩
    (fun _ => Except.error "boom") [] [] [("USDT", 1/2)] "BTC" (1/2) "boom"
    (by simp) (by decide) rfl

theorem getPricesAux_dryRun (s : Strategy) (b : Bool)
    (query : String → Except String Value) (l : List (String × Value)) (acc : VMap) :
    getPricesAux { s with DryRun := b } query l acc = getPricesAux s query l acc := by
  induction l generalizing acc with
  | nil => rfl
  | cons kv rest ih =>
    dsimp only [getPricesAux]
    by_cases hb : kv.1 = s.BaseCurrency
    · rw [if_pos hb, if_pos hb]
      exact ih _
    · rw [if_neg hb, if_neg hb]
      cases hq : query (kv.1 ++ s.BaseCurrency) with
      | error e => rfl
      | ok p => exact ih _

theorem getPrices_dryRun (s : Strategy) (b : Bool)
    (query : String → Except String Value) (targetWeights : VMap) :
    getPrices { s with DryRun := b } query targetWeights =
      getPrices s query targetWeights :=
  getPricesAux_dryRun s b query targetWeights []

theorem generateSubmitOrders_dryRun (s : Strategy) (b : Bool)
    (prices marketValues targetWeights : VMap) :
    generateSubmitOrders { s with DryRun := b } prices marketValues targetWeights =
      generateSubmitOrders s prices marketValues targetWeights := rfl

theorem getQuantities_dryRun (s : Strategy) (b : Bool) (balances : BalanceMap)
    (targetWeights : VMap) :
    getQuantities { s with DryRun := b } balances targetWeights =
      getQuantities s balances targetWeights := rfl

/-- C8: with DryRun set, rebalance computes exactly the same order list as
with DryRun cleared on the same inputs, and SubmitOrders is never invoked. -/
theorem C8_dry_run_same_orders_no_submit (s : Strategy)
    (query : String → Except String Value) (balances : BalanceMap)
    (targetWeights : VMap) :
    (rebalance { s with DryRun := true } query balances targetWeights).orders =
      (rebalance { s with DryRun := false } query balances targetWeights).orders ∧
    (rebalance { s with DryRun := true } query balances targetWeights).submitted =
      none := by
  unfold rebalance
  rw [getPrices_dryRun s true query targetWeights,
    getPrices_dryRun s false query targetWeights]
  rcases hgp : getPrices s query targetWeights with ⟨P, err⟩
  cases err with
  | some e => exact ⟨rfl, rfl⟩
  | none => exact ⟨rfl, rfl⟩

/-- C10: on a tick whose price resolution succeeds and with DryRun false,
rebalance always hands the generated list (possibly empty) to SubmitOrders. -/
theorem C10_submit_called_even_when_empty (s : Strategy)
    (query : String → Except String Value) (balances : BalanceMap)
    (targetWeights : VMap)
    (herr : (getPrices s query targetWeights).2 = none)
    (hdry : s.DryRun = false) :
    (rebalance s query balances targetWeights).submitted =
      some ((rebalance s query balances targetWeights).orders) := by
  unfold rebalance
  rcases hgp : getPrices s query targetWeights with ⟨P, err⟩
  have herr' : err = none := by
    rw [hgp] at herr
    exact herr
  subst herr'
  dsimp only
  rw [hdry]
  exact rfl

theorem C10_submit_called_even_when_empty_witness :
    (rebalance ⟨"USDT", 1/20, false, false, 0⟩ (fun _ => Except.error "x") []
        [("USDT", 1)]).submitted =
      some ((rebalance ⟨"USDT", 1/20, false, false, 0⟩ (fun _ => Except.error "x") []
        [("USDT", 1)]).orders) :=
  C10_submit_called_even_when_empty ⟨"USDT", 1/20, false, false, 0⟩
    (fun _ => Except.error "x") [] [("USDT", 1)] rfl rfl

end Pvd
